import Mathlib

/-!
Verification of the annotation-remapping core of `src/similar_lib/src/main.rs`.

Texts are embedded as `List Char` (the source diffs character-by-character via
`TextDiff::from_chars`, so the diff's atomic unit is a `char`).  The builder
`build_highlight_index`, however, works on Rust `&str` values, whose `find`,
`len` and slicing are byte-based: it is modelled over the UTF-8 byte sequence
of the text (`utf8Encode`), including the panic that slicing at a
non-character-boundary byte raises.  The edit script that the source obtains
from the external `similar` crate is taken as an explicit parameter:
`IsDiffOf old new script` states the DiffEngine contract (every old unit
appears exactly once as Delete-or-Equal in order, every new unit exactly once
as Insert-or-Equal in order), and `selfDiff T` is the script the contract and
the self-diff identity property determine for `diff(T, T)`.

Partiality of the Rust code (panics from out-of-bounds or mid-character
slicing / `unwrap`) is made explicit with `Option`: `none` models a panic.
-/

namespace SimilarLib

/-- The tag of one diff change, mirroring `similar::ChangeTag`. -/
inductive ChangeTag
  | Equal
  | Delete
  | Insert
  deriving DecidableEq

/-- One change produced by `TextDiff::from_chars(..).iter_all_changes()`:
a tag together with the single character the change covers. -/
structure EditChange where
  tag : ChangeTag
  val : Char
  deriving DecidableEq

/-- The classification of a change, mirroring the Rust `CharChangeType` enum. -/
inductive CharChangeType
  | EqualIndex
  | EqualDifferentIndex
  | Insertion
  | Deletion
  deriving DecidableEq

/-- The part of the Rust `ChangeDetail` record that carries data (the two
color fields are presentation only and are omitted). -/
structure ChangeDetail where
  index : Nat
  value : Char
  change_type : CharChangeType
  deriving DecidableEq

/-- `strFind pat hay` models Rust `hay.find(pat)` on sequences: the least
position at which `pat` occurs in `hay`, if any.  The builder applies it to
UTF-8 byte sequences, where it returns byte offsets exactly as `str::find`
does. -/
def strFind {α : Type} [DecidableEq α] (pat : List α) : List α → Option Nat
  | [] => if pat.isPrefixOf ([] : List α) then some 0 else none
  | c :: rest =>
    if pat.isPrefixOf (c :: rest) then some 0
    else (strFind pat rest).map (· + 1)

/-- The UTF-8 encoding of one character, as the list of its byte values. -/
def utf8Bytes (c : Char) : List Nat :=
  if c.toNat < 128 then [c.toNat]
  else if c.toNat < 2048 then [192 + c.toNat / 64, 128 + c.toNat % 64]
  else if c.toNat < 65536 then
    [224 + c.toNat / 4096, 128 + (c.toNat / 64) % 64, 128 + c.toNat % 64]
  else
    [240 + c.toNat / 262144, 128 + (c.toNat / 4096) % 64,
      128 + (c.toNat / 64) % 64, 128 + c.toNat % 64]

/-- The UTF-8 encoding of a text: the byte sequence on which the Rust `&str`
operations of `build_highlight_index` (`find`, `len`, slicing) work. -/
def utf8Encode (l : List Char) : List Nat := l.flatMap utf8Bytes

/-- Whether a byte is a UTF-8 continuation byte (`0x80 ≤ b < 0xC0`). -/
def utf8IsContByte (b : Nat) : Bool := decide (128 ≤ b ∧ b < 192)

/-- Rust `str::is_char_boundary` on a byte sequence: true at the end of the
sequence and at any byte that does not continue a multi-byte character; the
slice `old[start..]` panics exactly when this is false (past the end, or in
the middle of a character's encoding). -/
def isCharBoundary (bytes : List Nat) (i : Nat) : Bool :=
  match bytes.get? i with
  | none => i == bytes.length
  | some b => !utf8IsContByte b

/-- The `while let Some(pos) = old[start..].find(value)` loop of
`build_highlight_index`, over the UTF-8 byte sequences `old` and `value`
(all offsets and lengths are byte offsets and byte lengths, as in the Rust
source).  Each iteration appends the half-open byte range
`actual_pos .. actual_pos + value.len()` and restarts the search at
`actual_pos + 1` (overlap-permissive).  `none` models the Rust panic that
the slice `old[start..]` raises when `start` is past the end or not on a
character boundary — the restart can land inside a multi-byte character.
`fuel` bounds the number of remaining iterations; since `start` grows by at
least one per iteration, the top-level call passes `old.length + 1`, which
is exhausted only in states where `start` already exceeds `old.length`,
i.e. exactly where the boundary guard would return `none` anyway. -/
def buildScan (old value : List Nat) : Nat → Nat → Option (List Nat)
  | 0, _ => none
  | fuel + 1, start =>
    if isCharBoundary old start then
      match strFind value (old.drop start) with
      | none => some []
      | some pos =>
        let actual_pos := start + pos
        (buildScan old value fuel (actual_pos + 1)).map
          (fun rest => List.range' actual_pos value.length ++ rest)
    else none

/-- `build_highlight_index` from the source: scans the UTF-8 bytes of `old`
for occurrences of the UTF-8 bytes of `value` and maps `id` to the
concatenation, in match order, of the half-open byte ranges
`[p, p + value.len())` of every match (Rust `find` positions and `len` are
byte-based).  The `HashMap` is embedded as an association list; the entry
for `id` exists iff at least one match occurred (the Rust
`entry(id).or_default()` runs only inside the loop body).  `none` models a
panic. -/
def build_highlight_index (old : List Char) (id : Nat) (value : List Char) :
    Option (List (Nat × List Nat)) :=
  (buildScan (utf8Encode old) (utf8Encode value) ((utf8Encode old).length + 1) 0).map
    (fun positions => if positions.isEmpty then [] else [(id, positions)])

/-- First byte of the UTF-8 encoding of a character: the value the Rust
expression `change.value().as_bytes()[0]` reads for a one-character change. -/
def utf8FirstByte (c : Char) : Nat :=
  if c.toNat < 128 then c.toNat
  else if c.toNat < 2048 then 192 + c.toNat / 64
  else if c.toNat < 65536 then 224 + c.toNat / 4096
  else 240 + c.toNat / 262144

/-- The per-change classification performed in `main`'s diff loop: an Equal
change at enumerate index `idx` becomes `EqualIndex` exactly when
`idx == change.value().as_bytes()[0] as usize`. -/
def classifyChange (idx : Nat) (change : EditChange) : CharChangeType :=
  match change.tag with
  | ChangeTag.Equal =>
    if idx == utf8FirstByte change.val then CharChangeType.EqualIndex
    else CharChangeType.EqualDifferentIndex
  | ChangeTag.Delete => CharChangeType.Deletion
  | ChangeTag.Insert => CharChangeType.Insertion

/-- The classifier walk starting from enumerate counter `idx`. -/
def classifyFrom (idx : Nat) : List EditChange → List ChangeDetail
  | [] => []
  | change :: rest =>
    ⟨idx, change.val, classifyChange idx change⟩ :: classifyFrom (idx + 1) rest

/-- The full classifier walk of `main`'s `for (idx, change) in
diff.iter_all_changes().enumerate()` loop. -/
def classifyScript (script : List EditChange) : List ChangeDetail :=
  classifyFrom 0 script

/-- The characters of the old text as accounted for by a script
(every Delete-or-Equal change, in order). -/
def scriptOld (script : List EditChange) : List Char :=
  (script.filter (fun change => !(change.tag == ChangeTag.Insert))).map EditChange.val

/-- The characters of the new text as accounted for by a script
(every Insert-or-Equal change, in order). -/
def scriptNew (script : List EditChange) : List Char :=
  (script.filter (fun change => !(change.tag == ChangeTag.Delete))).map EditChange.val

/-- The DiffEngine contract of spec §4.1: `script` is an edit script of
`old` against `new`. -/
def IsDiffOf (old new : List Char) (script : List EditChange) : Prop :=
  scriptOld script = old ∧ scriptNew script = new

instance (old new : List Char) (script : List EditChange) :
    Decidable (IsDiffOf old new script) :=
  decidable_of_decidable_of_iff
    (Iff.rfl : (scriptOld script = old ∧ scriptNew script = new) ↔ _)

/-- The script that the DiffEngine contract together with the self-diff
identity property (spec §8) assigns to `diff(T, T)`: one Equal change per
unit of `T`, in order. -/
def selfDiff (T : List Char) : List EditChange :=
  T.map (fun c => ⟨ChangeTag.Equal, c⟩)

/-- `indexes.iter().map(|&idx| old.chars().nth(idx).unwrap()).collect()`:
resolves tracked indices to the characters they denote; `none` models the
`unwrap` panic on an out-of-bounds index. -/
def resolveChars (old : List Char) : List Nat → Option (List Char)
  | [] => some []
  | i :: rest =>
    match old.get? i with
    | none => none
    | some c => (resolveChars old rest).map (fun cs => c :: cs)

/-- The inner `for (new_idx, change) in diff.iter_all_changes().enumerate()`
loop of `update_highlight_index`, for one tracked entry.  `idx` is the
enumerate counter, `fm` the `first_match_index` variable, `acc` the
`new_indexes` vector; returning `acc` without recursing models `break`. -/
def remapLoop (orig : List Char) : Nat → Option Nat → List Nat → List EditChange → List Nat
  | _, _, acc, [] => acc
  | idx, fm, acc, change :: rest =>
    match change.tag with
    | ChangeTag.Equal =>
      let change_char := change.val
      let fm' := if fm.isNone && (orig.head? == some change_char) then some idx else fm
      match fm' with
      | none => remapLoop orig (idx + 1) none acc rest
      | some f =>
        match acc.getLast? with
        | none =>
          if orig.get? acc.length == some change_char then
            remapLoop orig (idx + 1) (some f) (acc ++ [idx]) rest
          else
            remapLoop orig (idx + 1) (some f) acc rest
        | some l =>
          if idx == l + 1 then
            if orig.get? acc.length == some change_char then
              remapLoop orig (idx + 1) (some f) (acc ++ [idx]) rest
            else
              acc
          else
            acc
    | _ => remapLoop orig (idx + 1) fm acc rest

/-- The body of `update_highlight_index` for a single tracked entry: resolve
the tracked characters, then run the scan over the edit script.  `none`
models the `unwrap` panic on an invalid tracked index. -/
def remapTracked (old : List Char) (script : List EditChange) (indexes : List Nat) :
    Option (List Nat) :=
  (resolveChars old indexes).map
    (fun original_chars => remapLoop original_chars 0 none [] script)

/-- `update_highlight_index` from the source.  The source computes the edit
script internally via `TextDiff::from_chars(old, new)`; here the script is a
parameter, constrained in theorems by `IsDiffOf old new script` (spec §4.1).
An entry is inserted into the result only when its remapped index list is
non-empty; `none` models a panic. -/
def update_highlight_index (old : List Char) (script : List EditChange) :
    List (Nat × List Nat) → Option (List (Nat × List Nat))
  | [] => some []
  | (uuid, indexes) :: rest =>
    match remapTracked old script indexes with
    | none => none
    | some new_indexes =>
      match update_highlight_index old script rest with
      | none => none
      | some updated =>
        if new_indexes.isEmpty then some updated
        else some ((uuid, new_indexes) :: updated)

/-- The character U+00E9, whose Unicode code point is 233 but whose first
UTF-8 byte is 195. -/
def eAcute : Char := Char.ofNat 233

/-- A script placing an Equal U+00E9 change at sequence index 195. -/
def tieScript : List EditChange :=
  List.replicate 195 ⟨ChangeTag.Insert, 'a'⟩ ++ [⟨ChangeTag.Equal, eAcute⟩]

/-! ### Basic facts about the scanner -/

/-- Bridge between the executable `isPrefixOf` test and the `<+:` relation. -/
lemma isPrefixOf_iff {α : Type} [DecidableEq α] {l₁ l₂ : List α} :
    l₁.isPrefixOf l₂ = true ↔ l₁ <+: l₂ :=
  List.isPrefixOf_iff_prefix

/-- A successful `strFind` names a genuine occurrence. -/
lemma strFind_some {α : Type} [DecidableEq α] {pat : List α} :
    ∀ {hay : List α} {pos : Nat}, strFind pat hay = some pos → pat <+: hay.drop pos := by
  intro hay
  induction hay with
  | nil =>
    intro pos h
    simp only [strFind] at h
    split at h
    · next hpre =>
      cases h
      simpa using isPrefixOf_iff.mp hpre
    · cases h
  | cons c rest ih =>
    intro pos h
    simp only [strFind] at h
    split at h
    · next hpre =>
      cases h
      simpa using isPrefixOf_iff.mp hpre
    · rcases Option.map_eq_some'.mp h with ⟨q, hq, rfl⟩
      simpa using ih hq

/-- A successful `strFind` never reports a position past the haystack. -/
lemma strFind_pos_le {α : Type} [DecidableEq α] {pat : List α} :
    ∀ {hay : List α} {pos : Nat}, strFind pat hay = some pos → pos ≤ hay.length := by
  intro hay
  induction hay with
  | nil =>
    intro pos h
    simp only [strFind] at h
    split at h
    · cases h; exact Nat.le_refl 0
    · cases h
  | cons c rest ih =>
    intro pos h
    simp only [strFind] at h
    split at h
    · cases h; exact Nat.zero_le _
    · rcases Option.map_eq_some'.mp h with ⟨q, hq, rfl⟩
      have := ih hq
      simp only [List.length_cons]
      omega

/-- The matched range of a successful `strFind` stays inside the haystack. -/
lemma strFind_le {α : Type} [DecidableEq α] {pat hay : List α} {pos : Nat}
    (h : strFind pat hay = some pos) :
    pos + pat.length ≤ hay.length := by
  have hlen := (strFind_some h).length_le
  have hpos := strFind_pos_le h
  simp only [List.length_drop] at hlen
  omega

/-- The empty pattern matches immediately at every start position. -/
lemma strFind_nil_left {α : Type} [DecidableEq α] (hay : List α) :
    strFind ([] : List α) hay = some 0 := by
  cases hay <;> rfl

/-- The UTF-8 encoding of a character is non-empty and starts with a
non-continuation byte. -/
lemma utf8Bytes_head (c : Char) :
    ∃ b bs, utf8Bytes c = b :: bs ∧ utf8IsContByte b = false := by
  unfold utf8Bytes
  split_ifs with h1 h2 h3
  · exact ⟨_, _, rfl, by simp only [utf8IsContByte, decide_eq_false_iff_not]; omega⟩
  · exact ⟨_, _, rfl, by simp only [utf8IsContByte, decide_eq_false_iff_not]; omega⟩
  · exact ⟨_, _, rfl, by simp only [utf8IsContByte, decide_eq_false_iff_not]; omega⟩
  · exact ⟨_, _, rfl, by simp only [utf8IsContByte, decide_eq_false_iff_not]; omega⟩

/-- The encoding of a non-empty text is a non-empty byte sequence. -/
lemma utf8Encode_ne_nil {value : List Char} (h : value ≠ []) :
    utf8Encode value ≠ [] := by
  cases value with
  | nil => exact absurd rfl h
  | cons c rest =>
    obtain ⟨b, bs, hb, _⟩ := utf8Bytes_head c
    simp [utf8Encode, hb]

/-- Byte position 0 is always a character boundary of an encoded text. -/
lemma utf8Encode_boundary_zero (old : List Char) :
    isCharBoundary (utf8Encode old) 0 = true := by
  cases old with
  | nil => rfl
  | cons c rest =>
    obtain ⟨b, bs, hb, hcont⟩ := utf8Bytes_head c
    have : utf8Encode (c :: rest) = b :: (bs ++ utf8Encode rest) := by
      simp [utf8Encode, hb]
    rw [isCharBoundary, this]
    simpa using hcont

/-- A character boundary never lies past the end of the byte sequence. -/
lemma isCharBoundary_le {bytes : List Nat} {i : Nat}
    (h : isCharBoundary bytes i = true) : i ≤ bytes.length := by
  rw [isCharBoundary] at h
  split at h
  · have h' : i = bytes.length := by simpa using h
    omega
  · next b hg =>
    have : i < bytes.length := (List.get?_eq_some.mp hg).1
    omega

/-- On an all-ASCII byte sequence every position up to the end is a
character boundary. -/
lemma isCharBoundary_ascii {bytes : List Nat} (hascii : ∀ b ∈ bytes, b < 128)
    {i : Nat} (hi : i ≤ bytes.length) : isCharBoundary bytes i = true := by
  rw [isCharBoundary]
  cases hg : bytes.get? i with
  | none =>
    rw [List.get?_eq_none] at hg
    have : i = bytes.length := by omega
    simp [this]
  | some b =>
    have hb := hascii b (List.get?_mem hg)
    simp [utf8IsContByte]
    omega

/-- With the empty pattern every scan state steps to the next byte, so the
scan always ends in a slice panic (past the end, or mid-character). -/
lemma buildScan_nil_pat (old : List Nat) :
    ∀ fuel start, buildScan old [] fuel start = none := by
  intro fuel
  induction fuel with
  | zero => intro start; rfl
  | succ fuel ih =>
    intro start
    simp only [buildScan, strFind_nil_left]
    split
    · simp [ih]
    · rfl

/-- On an all-ASCII text the scan never hits a boundary panic: with a
non-empty pattern it always terminates normally. -/
lemma buildScan_some_ascii (old value : List Nat) (hv : value ≠ [])
    (hascii : ∀ b ∈ old, b < 128) :
    ∀ fuel start, start ≤ old.length → old.length + 1 ≤ fuel + start →
      ∃ l, buildScan old value fuel start = some l := by
  intro fuel
  induction fuel with
  | zero => intro start h1 h2; omega
  | succ fuel ih =>
    intro start h1 h2
    simp only [buildScan]
    rw [if_pos (isCharBoundary_ascii hascii h1)]
    cases hf : strFind value (old.drop start) with
    | none => exact ⟨[], rfl⟩
    | some pos =>
      have hb := strFind_le hf
      have hvl : 1 ≤ value.length := by
        cases value
        · exact absurd rfl hv
        · simp
      have hdl : (old.drop start).length = old.length - start := by simp
      obtain ⟨l, hl⟩ := ih (start + pos + 1) (by omega) (by omega)
      refine ⟨List.range' (start + pos) value.length ++ l, ?_⟩
      simp [hl]

/-- Every byte position the scan emits is within the byte length of the
scanned text. -/
lemma buildScan_bounds (old value : List Nat) :
    ∀ fuel start l, buildScan old value fuel start = some l → ∀ i ∈ l, i < old.length := by
  intro fuel
  induction fuel with
  | zero => intro start l h; cases h
  | succ fuel ih =>
    intro start l h
    simp only [buildScan] at h
    split at h
    · next hbd =>
      have hstart : start ≤ old.length := isCharBoundary_le hbd
      split at h
      · cases h
        intro i hi
        cases hi
      · next pos hf =>
        rcases Option.map_eq_some'.mp h with ⟨rest, hrest, rfl⟩
        have hb := strFind_le hf
        have hdl : (old.drop start).length = old.length - start := by simp
        intro i hi
        rcases List.mem_append.mp hi with hi | hi
        · have := List.mem_range'_1.mp hi
          omega
        · exact ih (start + pos + 1) rest hrest i hi
    · cases h

/-- If the pattern's byte sequence occurs nowhere in the text's byte
sequence the builder returns the empty mapping. -/
lemma build_no_match (old value : List Char) (id : Nat)
    (h : ∀ p, ¬ utf8Encode value <+: (utf8Encode old).drop p) :
    build_highlight_index old id value = some [] := by
  have hf : strFind (utf8Encode value) (utf8Encode old) = none := by
    cases hf : strFind (utf8Encode value) (utf8Encode old) with
    | none => rfl
    | some pos => exact absurd (strFind_some hf) (h pos)
  have hbd := utf8Encode_boundary_zero old
  simp [build_highlight_index, buildScan, hbd, hf]

/-! ### Classifier facts -/

/-- Position lookup in the classifier's output. -/
lemma classifyFrom_get? (script : List EditChange) :
    ∀ n k, (classifyFrom n script).get? k
      = (script.get? k).map
          (fun change => ⟨n + k, change.val, classifyChange (n + k) change⟩) := by
  induction script with
  | nil => intro n k; simp [classifyFrom]
  | cons change rest ih =>
    intro n k
    cases k with
    | zero => simp [classifyFrom]
    | succ k =>
      have harith : n + 1 + k = n + (k + 1) := by omega
      simp only [classifyFrom, List.get?]
      rw [ih (n + 1) k, harith]

/-! ### Facts about character resolution -/

/-- A tracked index list that is valid for `old` resolves without panicking. -/
lemma resolveChars_some (old : List Char) :
    ∀ indexes : List Nat, (∀ i ∈ indexes, i < old.length) →
      ∃ cs, resolveChars old indexes = some cs := by
  intro indexes
  induction indexes with
  | nil => intro _; exact ⟨[], rfl⟩
  | cons i rest ih =>
    intro h
    have hi : i < old.length := h i (by simp)
    obtain ⟨cs, hcs⟩ := ih (fun j hj => h j (by simp [hj]))
    refine ⟨old.get ⟨i, hi⟩ :: cs, ?_⟩
    simp only [resolveChars, List.get?_eq_get hi, hcs, Option.map_some']

/-- Resolution preserves length. -/
lemma resolveChars_length (old : List Char) :
    ∀ {indexes : List Nat} {cs : List Char},
      resolveChars old indexes = some cs → cs.length = indexes.length := by
  intro indexes
  induction indexes with
  | nil =>
    intro cs h
    cases h
    rfl
  | cons i rest ih =>
    intro cs h
    simp only [resolveChars] at h
    split at h
    · cases h
    · rcases Option.map_eq_some'.mp h with ⟨cs', hcs', rfl⟩
      simp [ih hcs']

/-- The `k`-th resolved character is the character of `old` at the `k`-th
tracked index. -/
lemma resolveChars_get? (old : List Char) :
    ∀ {indexes : List Nat} {cs : List Char},
      resolveChars old indexes = some cs →
      ∀ k, cs.get? k = (indexes.get? k).bind old.get? := by
  intro indexes
  induction indexes with
  | nil =>
    intro cs h k
    cases h
    simp
  | cons i rest ih =>
    intro cs h k
    simp only [resolveChars] at h
    split at h
    · cases h
    · next c hgi =>
      rcases Option.map_eq_some'.mp h with ⟨cs', hcs', rfl⟩
      cases k with
      | zero => exact hgi.symm
      | succ k => simpa using ih hcs' k

/-- Resolving a contiguous run of valid indices yields the corresponding
contiguous slice of the text. -/
lemma resolveChars_range' (T : List Char) :
    ∀ (m s : Nat), s + m ≤ T.length →
      resolveChars T (List.range' s m) = some ((T.drop s).take m) := by
  intro m
  induction m with
  | zero => intro s _; simp [resolveChars]
  | succ m ih =>
    intro s h
    have hs : s < T.length := by omega
    obtain ⟨c, tl, hdrop⟩ : ∃ c tl, T.drop s = c :: tl := by
      cases hdrop : T.drop s with
      | nil =>
        have := congrArg List.length hdrop
        simp at this
        omega
      | cons c tl => exact ⟨c, tl, rfl⟩
    have hget : T.get? s = some c := by
      have hh := List.head?_drop T s
      rw [hdrop] at hh
      rw [List.get?_eq_getElem?]
      exact hh.symm
    have htl : T.drop (s + 1) = tl := by
      have hdd := List.drop_drop 1 s T
      rw [hdrop] at hdd
      rw [← hdd]
      simp
    rw [List.range'_succ]
    simp only [resolveChars, hget]
    rw [ih (s + 1) (by omega), hdrop, htl]
    rfl

/-! ### The remap scan: structural invariants -/

/-- With an empty anchor sequence the scan never matches and never emits. -/
lemma remapLoop_nil_orig :
    ∀ (tail : List EditChange) (idx : Nat),
      remapLoop ([] : List Char) idx none [] tail = [] := by
  intro tail
  induction tail with
  | nil => intro idx; rfl
  | cons change rest ih =>
    intro idx
    rcases change with ⟨tag, val⟩
    cases tag <;> exact ih (idx + 1)

/-- The emitted index list is strictly increasing, from any strictly
increasing accumulator. -/
lemma remapLoop_chain (orig : List Char) :
    ∀ (tail : List EditChange) (idx : Nat) (fm : Option Nat) (acc : List Nat),
      List.Chain' (· < ·) acc →
      List.Chain' (· < ·) (remapLoop orig idx fm acc tail) := by
  intro tail
  induction tail with
  | nil => intro idx fm acc h; exact h
  | cons change rest ih =>
    intro idx fm acc hchain
    simp only [remapLoop]
    split
    · split
      · exact ih _ _ _ hchain
      · split
        · split
          · next hlast _ =>
            refine ih _ _ _ ?_
            rw [List.getLast?_eq_none] at hlast
            subst hlast
            exact List.chain'_singleton idx
          · exact ih _ _ _ hchain
        · split
          · next l hlast hidx =>
            split
            · refine ih _ _ _ ?_
              rw [List.chain'_append]
              refine ⟨hchain, List.chain'_singleton idx, ?_⟩
              intro x hx y hy
              rw [hlast] at hx
              cases hx
              rw [List.head?_cons] at hy
              cases hy
              have : idx = l + 1 := by simpa using hidx
              omega
            · exact hchain
          · exact hchain
    · exact ih _ _ _ hchain

/-- Every emitted index names an Equal change of the script whose character
is the anchor character at the corresponding output position. -/
lemma remapLoop_good (orig : List Char) (script : List EditChange) :
    ∀ (tail : List EditChange) (idx : Nat) (fm : Option Nat) (acc : List Nat),
      (∀ k change, tail.get? k = some change → script.get? (idx + k) = some change) →
      (∀ k p, acc.get? k = some p → ∃ change, script.get? p = some change ∧
          change.tag = ChangeTag.Equal ∧ orig.get? k = some change.val) →
      ∀ k p, (remapLoop orig idx fm acc tail).get? k = some p →
        ∃ change, script.get? p = some change ∧
          change.tag = ChangeTag.Equal ∧ orig.get? k = some change.val := by
  intro tail
  induction tail with
  | nil => intro idx fm acc _ hgood k p hk; exact hgood k p hk
  | cons change rest ih =>
    intro idx fm acc htail hgood k p hk
    have hscript0 : script.get? idx = some change := by
      have := htail 0 change rfl
      simpa using this
    have htail' : ∀ j ch, rest.get? j = some ch → script.get? (idx + 1 + j) = some ch := by
      intro j ch hj
      have := htail (j + 1) ch (by simpa using hj)
      rw [show idx + 1 + j = idx + (j + 1) by omega]
      exact this
    have hpush : ∀ (htag : change.tag = ChangeTag.Equal)
        (horig : orig.get? acc.length = some change.val)
        (j q : Nat), (acc ++ [idx]).get? j = some q →
        ∃ ch, script.get? q = some ch ∧ ch.tag = ChangeTag.Equal ∧
          orig.get? j = some ch.val := by
      intro htag horig j q hj
      rcases Nat.lt_trichotomy j acc.length with hlt | heqj | hgt
      · rw [List.get?_append hlt] at hj
        exact hgood j q hj
      · subst heqj
        rw [List.get?_concat_length] at hj
        injection hj with hj
        subst hj
        exact ⟨change, hscript0, htag, horig⟩
      · rw [List.get?_append_right (by omega)] at hj
        rw [List.get?_eq_none.mpr (by simp; omega)] at hj
        cases hj
    simp only [remapLoop] at hk
    split at hk
    · next htag =>
      split at hk
      · exact ih _ _ _ htail' hgood k p hk
      · split at hk
        · split at hk
          · next hcond =>
            refine ih _ _ _ htail' (hpush htag (by simpa using hcond)) k p hk
          · exact ih _ _ _ htail' hgood k p hk
        · split at hk
          · split at hk
            · next hcond =>
              refine ih _ _ _ htail' (hpush htag (by simpa using hcond)) k p hk
            · exact hgood k p hk
          · exact hgood k p hk
    · exact ih _ _ _ htail' hgood k p hk

/-! ### The remap scan on a self-diff script -/

lemma selfDiff_nil : selfDiff [] = [] := rfl

lemma selfDiff_cons (c : Char) (T : List Char) :
    selfDiff (c :: T) = ⟨ChangeTag.Equal, c⟩ :: selfDiff T := rfl

lemma selfDiff_append (x y : List Char) :
    selfDiff (x ++ y) = selfDiff x ++ selfDiff y := List.map_append _ x y

lemma range'_getLast? (s k : Nat) : (List.range' s (k + 1)).getLast? = some (s + k) := by
  rw [List.range'_concat]
  simp

/-- A change whose Equal character does not match the anchor head (or which
is not Equal at all) is skipped while no anchor has been found. -/
lemma remapLoop_skip (orig : List Char) :
    ∀ (pre : List EditChange) (idx : Nat) (rest : List EditChange),
      (∀ change ∈ pre, change.tag = ChangeTag.Equal → orig.head? ≠ some change.val) →
      remapLoop orig idx none [] (pre ++ rest)
        = remapLoop orig (idx + pre.length) none [] rest := by
  intro pre
  induction pre with
  | nil => intro idx rest _; simp
  | cons change pre' ih =>
    intro idx rest h
    rcases change with ⟨tag, val⟩
    have hstep : remapLoop orig idx none [] (⟨tag, val⟩ :: (pre' ++ rest))
        = remapLoop orig (idx + 1) none [] (pre' ++ rest) := by
      cases tag with
      | Equal =>
        have hne : orig.head? ≠ some val := h ⟨ChangeTag.Equal, val⟩ (by simp) rfl
        have hcond : (orig.head? == some val) = false := beq_eq_false_iff_ne.mpr hne
        simp [remapLoop, hcond]
      | Delete => simp [remapLoop]
      | Insert => simp [remapLoop]
    rw [List.cons_append, hstep, ih (idx + 1) rest (fun c hc ht => h c (by simp [hc]) ht),
      show idx + 1 + pre'.length = idx + (pre'.length + 1) from by omega]
    rfl

/-- The first Equal change matching the anchor head anchors the scan and is
emitted. -/
lemma remapLoop_step_start (orig : List Char) (idx : Nat) (val : Char)
    (rest : List EditChange) (hhead : orig.head? = some val) :
    remapLoop orig idx none [] (⟨ChangeTag.Equal, val⟩ :: rest)
      = remapLoop orig (idx + 1) (some idx) [idx] rest := by
  have hget : orig[0]? = some val := by
    rw [← List.get?_eq_getElem?]
    cases orig
    · cases hhead
    · simpa using hhead
  have hcond : (orig.head? == some val) = true := by simp [hhead]
  simp [remapLoop, hcond, hget]

/-- A contiguous Equal change matching the next anchor character extends the
emitted run by one. -/
lemma remapLoop_step_push (orig : List Char) (f s k : Nat) (val : Char)
    (rest : List EditChange) (hget : orig.get? (k + 1) = some val) :
    remapLoop orig (s + k + 1) (some f) (List.range' s (k + 1))
        (⟨ChangeTag.Equal, val⟩ :: rest)
      = remapLoop orig (s + k + 1 + 1) (some f)
          (List.range' s (k + 1) ++ [s + k + 1]) rest := by
  rw [List.get?_eq_getElem?] at hget
  have hlast := range'_getLast? s k
  have hlen : (List.range' s (k + 1)).length = k + 1 := List.length_range' s 1 (k + 1)
  simp [remapLoop, hlast, hlen, hget]

/-- A contiguous Equal change that fails the character check stops the scan
with the accumulated run. -/
lemma remapLoop_step_stop (orig : List Char) (f s k : Nat) (val : Char)
    (rest : List EditChange) (hget : orig.get? (k + 1) = none) :
    remapLoop orig (s + k + 1) (some f) (List.range' s (k + 1))
        (⟨ChangeTag.Equal, val⟩ :: rest)
      = List.range' s (k + 1) := by
  rw [List.get?_eq_getElem?] at hget
  have hlast := range'_getLast? s k
  have hlen : (List.range' s (k + 1)).length = k + 1 := List.length_range' s 1 (k + 1)
  simp [remapLoop, hlast, hlen, hget]

/-- Once anchored at the run's start, the scan follows a self-diff script of
the remaining text and emits exactly the remaining anchor characters. -/
lemma remapLoop_extend (f s : Nat) :
    ∀ (D C E : List Char), C ≠ [] →
      remapLoop (C ++ D) (s + C.length) (some f) (List.range' s C.length)
          (selfDiff (D ++ E))
        = List.range' s (C.length + D.length) := by
  intro D
  induction D with
  | nil =>
    intro C E hC
    obtain ⟨k, hk⟩ : ∃ k, C.length = k + 1 := by
      cases C
      · exact absurd rfl hC
      · exact ⟨_, rfl⟩
    rw [List.append_nil, List.nil_append, hk]
    cases E with
    | nil => simp [selfDiff, remapLoop]
    | cons e E' =>
      have hget : C.get? (k + 1) = none := by
        rw [List.get?_eq_none]
        omega
      rw [selfDiff_cons,
        show s + (k + 1) = s + k + 1 from rfl,
        remapLoop_step_stop C f s k e (selfDiff E') hget]
      simp
  | cons d D' ih =>
    intro C E hC
    obtain ⟨k, hk⟩ : ∃ k, C.length = k + 1 := by
      cases C
      · exact absurd rfl hC
      · exact ⟨_, rfl⟩
    have hget : (C ++ d :: D').get? (k + 1) = some d := by
      rw [← hk, List.get?_append_right (Nat.le_refl _)]
      simp
    rw [show (d :: D') ++ E = d :: (D' ++ E) from rfl, selfDiff_cons, hk,
      show s + (k + 1) = s + k + 1 from rfl,
      remapLoop_step_push (C ++ d :: D') f s k d (selfDiff (D' ++ E)) hget]
    have hacc : List.range' s (k + 1) ++ [s + k + 1] = List.range' s (k + 2) := by
      rw [show k + 2 = k + 1 + 1 from rfl, List.range'_concat s (k + 1), one_mul,
        show s + (k + 1) = s + k + 1 from rfl]
    rw [hacc]
    have hCd : C ++ d :: D' = (C ++ [d]) ++ D' := by simp
    have hlen2 : (C ++ [d]).length = k + 2 := by simp [hk]
    have hIH := ih (C ++ [d]) E (by simp)
    rw [hlen2, ← hCd] at hIH
    rw [show s + k + 1 + 1 = s + (k + 2) from by omega, hIH,
      show (k + 2) + D'.length = (k + 1) + (d :: D').length from by simp; omega]

/-! ### Facts about the full update -/

/-- A mapping whose entries are all valid for `old` is updated without
panicking. -/
lemma update_some (old : List Char) (script : List EditChange) :
    ∀ index : List (Nat × List Nat),
      (∀ e ∈ index, ∀ i ∈ e.2, i < old.length) →
      ∃ m, update_highlight_index old script index = some m := by
  intro index
  induction index with
  | nil => intro _; exact ⟨[], rfl⟩
  | cons e rest ih =>
    intro h
    obtain ⟨u, ixs⟩ := e
    obtain ⟨cs, hcs⟩ := resolveChars_some old ixs (fun i hi => h (u, ixs) (by simp) i hi)
    obtain ⟨m, hm⟩ := ih (fun e he i hi => h e (by simp [he]) i hi)
    refine ⟨if (remapLoop cs 0 none [] script).isEmpty then m
            else (u, remapLoop cs 0 none [] script) :: m, ?_⟩
    simp only [update_highlight_index, remapTracked, hcs, Option.map_some', hm]
    split <;> rfl

/-- Every entry of the updated mapping is non-empty and stems from an entry
of the input mapping via a successful remap. -/
lemma update_mem (old : List Char) (script : List EditChange) :
    ∀ (index m : List (Nat × List Nat)),
      update_highlight_index old script index = some m →
      ∀ u l, (u, l) ∈ m →
        l ≠ [] ∧ ∃ ixs, (u, ixs) ∈ index ∧ remapTracked old script ixs = some l := by
  intro index
  induction index with
  | nil =>
    intro m hm u l hl
    cases hm
    exact absurd hl (List.not_mem_nil _)
  | cons e rest ih =>
    intro m hm u l hl
    obtain ⟨u', ixs'⟩ := e
    simp only [update_highlight_index] at hm
    split at hm
    · cases hm
    · next new_indexes hrt =>
      split at hm
      · cases hm
      · next updated hupd =>
        split at hm
        · cases hm
          obtain ⟨hne, ixs, hmem, hr⟩ := ih _ hupd u l hl
          exact ⟨hne, ixs, by simp [hmem], hr⟩
        · next hne =>
          cases hm
          rcases List.mem_cons.mp hl with hl | hl
          · cases hl
            refine ⟨?_, ixs', by simp, hrt⟩
            intro hnil
            subst hnil
            simp at hne
          · obtain ⟨hne', ixs, hmem, hr⟩ := ih _ hupd u l hl
            exact ⟨hne', ixs, by simp [hmem], hr⟩

/-- An entry whose remap result is non-empty appears in the updated
mapping. -/
lemma update_mem_of (old : List Char) (script : List EditChange) :
    ∀ (index m : List (Nat × List Nat)),
      update_highlight_index old script index = some m →
      ∀ u ixs r, (u, ixs) ∈ index → remapTracked old script ixs = some r → r ≠ [] →
        (u, r) ∈ m := by
  intro index
  induction index with
  | nil =>
    intro m _ u ixs r hmem
    exact absurd hmem (List.not_mem_nil _)
  | cons e rest ih =>
    intro m hm u ixs r hmem hr hrne
    obtain ⟨u', ixs'⟩ := e
    simp only [update_highlight_index] at hm
    split at hm
    · cases hm
    · next new_indexes hrt =>
      split at hm
      · cases hm
      · next updated hupd =>
        rcases List.mem_cons.mp hmem with hmem | hmem
        · cases hmem
          rw [hr] at hrt
          injection hrt with hrt
          subst hrt
          split at hm
          · next hemp =>
            rw [List.isEmpty_iff] at hemp
            exact absurd hemp hrne
          · cases hm
            exact List.mem_cons_self _ _
        · have := ih _ hupd u ixs r hmem hr hrne
          split at hm <;> cases hm
          · exact this
          · exact List.mem_cons_of_mem _ this

/-- In a mapping with distinct keys, an entry is determined by its key. -/
lemma nodup_keys_inj :
    ∀ (index : List (Nat × List Nat)), (index.map Prod.fst).Nodup →
      ∀ u a b, (u, a) ∈ index → (u, b) ∈ index → a = b := by
  intro index
  induction index with
  | nil => intro _ u a b ha; exact absurd ha (List.not_mem_nil _)
  | cons e rest ih =>
    intro hnd u a b ha hb
    obtain ⟨u', l'⟩ := e
    simp only [List.map_cons, List.nodup_cons] at hnd
    rcases List.mem_cons.mp ha with ha1 | ha2
    · rcases List.mem_cons.mp hb with hb1 | hb2
      · injection ha1 with hu1 hl1
        injection hb1 with hu2 hl2
        rw [hl1, hl2]
      · injection ha1 with hu1 hl1
        subst hu1
        have hu : u ∈ rest.map Prod.fst := List.mem_map_of_mem Prod.fst hb2
        exact absurd hu hnd.1
    · rcases List.mem_cons.mp hb with hb1 | hb2
      · injection hb1 with hu2 hl2
        subst hu2
        have hu : u ∈ rest.map Prod.fst := List.mem_map_of_mem Prod.fst ha2
        exact absurd hu hnd.1
      · exact ih hnd.2 u a b ha2 hb2

/-! ### Claim C3 -/

/-- Claim C3, counterexample: a zero-length pattern is not rejected with a
ConfigurationError before scanning; the builder has no error channel at all,
and the call ends in the out-of-bounds slice panic (modelled by `none`). -/
theorem empty_pattern_counterexample : build_highlight_index ['a'] 0 [] = none := by decide

/-- Claim C3, amended: for every reference text, calling the index builder
with a zero-length pattern terminates (it does not loop forever) but is not
rejected with a ConfigurationError: the scan steps through the text byte by
byte and then panics on a string slice — past the end of the text, or at the
first byte inside a multi-byte character — never returning a result. -/
theorem empty_pattern_panics (old : List Char) (id : Nat) :
    build_highlight_index old id [] = none := by
  simp [build_highlight_index, utf8Encode, buildScan_nil_pat]

/-! ### Claim C4 -/

/-- Claim C4: on text `"aaa"`, pattern `"a"` yields exactly the positions
`{0,1,2}`, and pattern `"aa"` yields the union of the ranges starting at `0`
and at `1`, again the position set `{0,1,2}` (one-step advance, ranges
unioned into a set). -/
theorem overlap_scan_positions :
    build_highlight_index ['a','a','a'] 0 ['a'] = some [(0, [0, 1, 2])] ∧
    build_highlight_index ['a','a','a'] 0 ['a','a'] = some [(0, [0, 1, 1, 2])] ∧
    ([0, 1, 2] : List Nat).toFinset = {0, 1, 2} ∧
    ([0, 1, 1, 2] : List Nat).toFinset = {0, 1, 2} := by decide

/-! ### Claim C5 -/

/-- Claim C5, counterexample: the builder's position sequence is not always
ordered ascending — on text `"aaaa"` with pattern `"aaa"` the two overlapping
matches produce `[0,1,2,1,2,3]`, which descends from `2` to `1`. -/
theorem index_ascending_counterexample :
    build_highlight_index ['a','a','a','a'] 0 ['a','a','a'] = some [(0, [0, 1, 2, 1, 2, 3])] ∧
    ¬ List.Chain' (· ≤ ·) [0, 1, 2, 1, 2, 3] := by
  refine ⟨by decide, ?_⟩
  simp [List.chain'_cons]

/-- Claim C5, amended: for every reference text and every non-empty pattern,
any mapping the builder returns has every index within the byte bounds of the
reference text (positions are byte offsets), and if the pattern's byte
sequence occurs nowhere the builder returns the empty mapping rather than an
error; on an all-ASCII reference text the builder always succeeds, but it is
not total in general — the one-byte overlap-permissive restart can land
inside a multi-byte character's encoding, where the Rust slice panics (e.g.
text `"é"`, pattern `"é"`); and the position sequence is the in-order
concatenation of match ranges, not ascending when matches overlap. -/
theorem index_bounds_amended (old value : List Char) (id : Nat) (hv : value ≠ []) :
    (∀ m, build_highlight_index old id value = some m →
      ∀ e ∈ m, ∀ i ∈ e.2, i < (utf8Encode old).length) ∧
    ((∀ p, ¬ utf8Encode value <+: (utf8Encode old).drop p) →
      build_highlight_index old id value = some []) ∧
    ((∀ b ∈ utf8Encode old, b < 128) →
      ∃ m, build_highlight_index old id value = some m) ∧
    build_highlight_index [eAcute] 0 [eAcute] = none := by
  refine ⟨?_, build_no_match old value id, ?_, by decide⟩
  · intro m hm e he i hi
    simp only [build_highlight_index] at hm
    rcases Option.map_eq_some'.mp hm with ⟨l, hl, rfl⟩
    split at he
    · exact absurd he (List.not_mem_nil e)
    · rw [List.mem_singleton] at he
      subst he
      exact buildScan_bounds (utf8Encode old) (utf8Encode value)
        ((utf8Encode old).length + 1) 0 l hl i (by simpa using hi)
  · intro hascii
    obtain ⟨l, hl⟩ := buildScan_some_ascii (utf8Encode old) (utf8Encode value)
      (utf8Encode_ne_nil hv) hascii ((utf8Encode old).length + 1) 0
      (by omega) (by omega)
    refine ⟨if l.isEmpty then [] else [(id, l)], ?_⟩
    simp [build_highlight_index, hl]

/-- Claim C5, amended, witness at a concrete input. -/
theorem index_bounds_amended_witness :
    (∀ m, build_highlight_index ['a'] 0 ['a'] = some m →
      ∀ e ∈ m, ∀ i ∈ e.2, i < (utf8Encode ['a']).length) ∧
    ((∀ p, ¬ utf8Encode ['a'] <+: (utf8Encode ['a']).drop p) →
      build_highlight_index ['a'] 0 ['a'] = some []) ∧
    ((∀ b ∈ utf8Encode ['a'], b < 128) →
      ∃ m, build_highlight_index ['a'] 0 ['a'] = some m) ∧
    build_highlight_index [eAcute] 0 [eAcute] = none :=
  index_bounds_amended ['a'] ['a'] 0 (by decide)

/-! ### Claim C7 -/

/-- Claim C7: for old `"abc"`, new `"axc"` with edit script Equal `'a'`,
Delete `'b'`, Insert `'x'`, Equal `'c'`, remapping the tracked positions
`[0,1]` returns exactly the single position `0`: the `'b'` is dropped and
the later Equal `'c'` is not picked up because contiguity was broken. -/
theorem remap_prefix_recovery :
    IsDiffOf ['a','b','c'] ['a','x','c']
      [⟨ChangeTag.Equal,'a'⟩, ⟨ChangeTag.Delete,'b'⟩,
       ⟨ChangeTag.Insert,'x'⟩, ⟨ChangeTag.Equal,'c'⟩] ∧
    update_highlight_index ['a','b','c']
      [⟨ChangeTag.Equal,'a'⟩, ⟨ChangeTag.Delete,'b'⟩,
       ⟨ChangeTag.Insert,'x'⟩, ⟨ChangeTag.Equal,'c'⟩]
      [(0, [0, 1])] = some [(0, [0])] := by decide

/-! ### Claim C8 -/

set_option maxRecDepth 4000 in
/-- Claim C8, counterexample: the Equal change at sequence index 195 carries
a character with raw numeric code 233 yet is classified `EqualIndex`: the
code compares the index with the first UTF-8 byte (195), not with the
character's numeric code. -/
theorem equal_tiebreak_counterexample :
    tieScript.get? 195 = some ⟨ChangeTag.Equal, eAcute⟩ ∧
    (classifyScript tieScript).get? 195
      = some ⟨195, eAcute, CharChangeType.EqualIndex⟩ ∧
    195 ≠ eAcute.toNat := by decide

/-- Claim C8, amended: an Equal operation is classified `EqualIndex` iff its
zero-based sequence index equals the first UTF-8 byte of the operation's
first character unit (which is the character's raw numeric code exactly for
ASCII units); otherwise it is `EqualDifferentIndex`. -/
theorem equal_tiebreak_firstbyte (script : List EditChange) (idx : Nat) (change : EditChange)
    (hch : script.get? idx = some change) (heq : change.tag = ChangeTag.Equal) :
    (classifyScript script).get? idx
      = some ⟨idx, change.val, CharChangeType.EqualIndex⟩ ↔ idx = utf8FirstByte change.val := by
  have hg := classifyFrom_get? script 0 idx
  rw [hch] at hg
  simp only [Nat.zero_add, Option.map_some'] at hg
  rw [classifyScript, hg]
  simp only [classifyChange, heq]
  by_cases h : idx = utf8FirstByte change.val
  · simp [h]
  · simp [h]

/-- Claim C8, amended, witness at a concrete input. -/
theorem equal_tiebreak_firstbyte_witness :
    ((classifyScript [⟨ChangeTag.Equal, 'a'⟩]).get? 0
      = some ⟨0, 'a', CharChangeType.EqualIndex⟩ ↔ 0 = utf8FirstByte 'a') :=
  equal_tiebreak_firstbyte [⟨ChangeTag.Equal, 'a'⟩] 0 ⟨ChangeTag.Equal, 'a'⟩ (by decide) rfl

/-! ### Counterexamples for the remap claims C1 and C2 -/

/-- Claim C1, counterexample: for `T = "aba"` and the valid, strictly
ascending tracked positions `[0,2]`, remapping across the edit script of `T`
against itself returns `[0]`, not the input positions: the scan re-anchors at
position 0 and breaks when the next Equal character `'b'` differs from the
next tracked character `'a'`. -/
theorem remap_identity_counterexample :
    (∀ i ∈ ([0, 2] : List Nat), i < (['a','b','a'] : List Char).length) ∧
    List.Chain' (· < ·) [0, 2] ∧
    update_highlight_index ['a','b','a'] (selfDiff ['a','b','a']) [(0, [0, 2])]
      = some [(0, [0])] ∧
    ([0] : List Nat) ≠ [0, 2] := by
  refine ⟨by decide, ?_, by decide, by decide⟩
  simp [List.chain'_cons]

/-- Claim C2, counterexample: for old `"ba"`, new `"a"` (edit script Delete
`'b'`, Equal `'a'`) and tracked position `[1]`, the remapper emits position
`1`, which is not a valid index into the new text of length 1: emitted
positions are sequence indices of the edit script, not new-text indices. -/
theorem remapped_chars_counterexample :
    IsDiffOf ['b','a'] ['a'] [⟨ChangeTag.Delete,'b'⟩, ⟨ChangeTag.Equal,'a'⟩] ∧
    (∀ i ∈ ([1] : List Nat), i < (['b','a'] : List Char).length) ∧
    update_highlight_index ['b','a'] [⟨ChangeTag.Delete,'b'⟩, ⟨ChangeTag.Equal,'a'⟩]
      [(0, [1])] = some [(0, [1])] ∧
    ¬ (1 < (['a'] : List Char).length) := by decide

/-! ### Claim C1, amended -/

/-- Claim C1, amended: remap identity holds for a contiguous tracked run
whose first character is not preceded by an equal character: if the tracked
positions are the contiguous valid block `[s, s+m)` with `m ≥ 1` and no
position before `s` holds the character at `s`, then remapping across the
edit script of `T` against itself returns exactly the same positions. -/
theorem remap_identity_contiguous (T : List Char) (u s m : Nat)
    (hm : 1 ≤ m) (hbound : s + m ≤ T.length)
    (hfirst : ∀ j, j < s → T.get? j ≠ T.get? s) :
    update_highlight_index T (selfDiff T) [(u, List.range' s m)]
      = some [(u, List.range' s m)] := by
  obtain ⟨m', rfl⟩ : ∃ m', m = m' + 1 := ⟨m - 1, by omega⟩
  have hs : s < T.length := by omega
  obtain ⟨c, tl, hdrop⟩ : ∃ c tl, T.drop s = c :: tl := by
    cases hdrop : T.drop s with
    | nil =>
      have := congrArg List.length hdrop
      simp at this
      omega
    | cons c tl => exact ⟨c, tl, rfl⟩
  have htl_len : tl.length + 1 = T.length - s := by
    have := congrArg List.length hdrop
    simp at this
    omega
  have hgetc : T.get? s = some c := by
    have hh := List.head?_drop T s
    rw [hdrop] at hh
    rw [List.get?_eq_getElem?]
    exact hh.symm
  -- the resolved anchor sequence is the tracked slice
  have hres : resolveChars T (List.range' s (m' + 1)) = some (c :: tl.take m') := by
    rw [resolveChars_range' T (m' + 1) s hbound, hdrop, List.take_succ_cons]
  -- decompose the text around the tracked run
  have hT : T = T.take s ++ (c :: (tl.take m' ++ tl.drop m')) := by
    rw [List.take_append_drop m' tl, ← hdrop, List.take_append_drop s T]
  have hA_len : (T.take s).length = s := by
    rw [List.length_take]
    omega
  have hC'_len : (tl.take m').length = m' := by
    rw [List.length_take]
    omega
  -- characters before the run never match the anchor head
  have hskip : ∀ change ∈ selfDiff (T.take s), change.tag = ChangeTag.Equal →
      (c :: tl.take m').head? ≠ some change.val := by
    intro change hch _
    rcases List.mem_map.mp hch with ⟨a, haA, rfl⟩
    obtain ⟨j, hj⟩ := List.mem_iff_get?.mp haA
    have hjl : j < (T.take s).length := (List.get?_eq_some.mp hj).1
    have hjs : j < s := by omega
    rw [List.get?_take hjs] at hj
    rw [List.head?_cons]
    intro hcontra
    injection hcontra with hcontra
    have hca : c = a := hcontra
    exact hfirst j hjs (by rw [hj, ← hca, hgetc])
  -- the scan: skip the text before the run, anchor, then extend to the end
  have hloop : remapLoop (c :: tl.take m') 0 none [] (selfDiff T)
      = List.range' s (m' + 1) := by
    conv_lhs => rw [hT]
    rw [selfDiff_append, selfDiff_cons,
      remapLoop_skip (c :: tl.take m') (selfDiff (T.take s)) 0 _ hskip,
      show (0 : Nat) + (selfDiff (T.take s)).length = s from by simp [selfDiff]; omega,
      remapLoop_step_start (c :: tl.take m') s c _ (List.head?_cons),
      show (c :: tl.take m') = [c] ++ tl.take m' from rfl,
      show s + 1 = s + ([c] : List Char).length from rfl,
      show [s] = List.range' s ([c] : List Char).length from (List.range'_one).symm,
      remapLoop_extend s s (tl.take m') [c] (tl.drop m') (by simp),
      show ([c] : List Char).length + (tl.take m').length = m' + 1 from by
        simp [hC'_len]
        omega]
  have hrt : remapTracked T (selfDiff T) (List.range' s (m' + 1))
      = some (List.range' s (m' + 1)) := by
    rw [remapTracked, hres, Option.map_some', hloop]
  have hne : (List.range' s (m' + 1)).isEmpty = false := by
    rw [List.range'_succ]
    rfl
  simp only [update_highlight_index, hrt, hne]
  rfl

/-- Claim C1, amended, witness at a concrete input. -/
theorem remap_identity_contiguous_witness :
    update_highlight_index ['a','b'] (selfDiff ['a','b']) [(0, List.range' 1 1)]
      = some [(0, List.range' 1 1)] :=
  remap_identity_contiguous ['a','b'] 0 1 1 (by decide) (by decide) (by decide)

/-! ### Claim C6 -/

/-- Claim C6: for every `(old, new, index)` input with `index` valid for
`old`, the emitted position sequence is strictly increasing, its length never
exceeds the anchor sequence's length, and every emitted position is the
sequence index of an Equal record of the edit script (never of an Insert or
Delete record). -/
theorem remap_guarantees (old new : List Char) (script : List EditChange)
    (hdiff : IsDiffOf old new script) (indexes : List Nat)
    (hvalid : ∀ i ∈ indexes, i < old.length)
    (r : List Nat) (hr : remapTracked old script indexes = some r) :
    List.Chain' (· < ·) r ∧ r.length ≤ indexes.length ∧
      ∀ p ∈ r, ∃ change, script.get? p = some change ∧ change.tag = ChangeTag.Equal := by
  obtain ⟨cs, hcs⟩ := resolveChars_some old indexes hvalid
  have hlen := resolveChars_length old hcs
  rw [remapTracked, hcs, Option.map_some'] at hr
  injection hr with hr
  subst hr
  have hgood := remapLoop_good cs script script 0 none []
    (fun k ch hk => by simpa using hk) (fun k p hk => by simp at hk)
  refine ⟨remapLoop_chain cs script 0 none [] List.chain'_nil, ?_, ?_⟩
  · by_contra hlt
    push_neg at hlt
    cases hgc : (remapLoop cs 0 none [] script).get? cs.length with
    | none =>
      rw [List.get?_eq_none] at hgc
      omega
    | some p =>
      obtain ⟨change, _, _, horig⟩ := hgood cs.length p hgc
      rw [List.get?_eq_none.mpr (Nat.le_refl _)] at horig
      cases horig
  · intro p hp
    obtain ⟨k, hk⟩ := List.mem_iff_get?.mp hp
    obtain ⟨change, h1, h2, _⟩ := hgood k p hk
    exact ⟨change, h1, h2⟩

/-- Claim C6, witness at a concrete input. -/
theorem remap_guarantees_witness :
    List.Chain' (· < ·) [0] ∧ ([0] : List Nat).length ≤ ([0] : List Nat).length ∧
      ∀ p ∈ ([0] : List Nat), ∃ change,
        ([⟨ChangeTag.Equal, 'a'⟩] : List EditChange).get? p = some change ∧
          change.tag = ChangeTag.Equal :=
  remap_guarantees ['a'] ['a'] [⟨ChangeTag.Equal, 'a'⟩] (by decide) [0] (by decide)
    [0] (by decide)

/-! ### Claim C2, amended -/

/-- Claim C2, amended: every emitted position is a valid index into the edit
script (not necessarily into the new text) and names an Equal record whose
character equals the old text's character at the corresponding tracked
position: the k-th emitted position corresponds to the k-th tracked
position. -/
theorem remapped_chars_amended (old new : List Char) (script : List EditChange)
    (hdiff : IsDiffOf old new script) (indexes : List Nat)
    (hvalid : ∀ i ∈ indexes, i < old.length)
    (r : List Nat) (hr : remapTracked old script indexes = some r) :
    ∀ k p i, r.get? k = some p → indexes.get? k = some i →
      p < script.length ∧ ∃ change, script.get? p = some change ∧
        change.tag = ChangeTag.Equal ∧ old.get? i = some change.val := by
  obtain ⟨cs, hcs⟩ := resolveChars_some old indexes hvalid
  rw [remapTracked, hcs, Option.map_some'] at hr
  injection hr with hr
  subst hr
  have hgood := remapLoop_good cs script script 0 none []
    (fun k ch hk => by simpa using hk) (fun k p hk => by simp at hk)
  intro k p i hk hi
  obtain ⟨change, h1, h2, h3⟩ := hgood k p hk
  have hcg := resolveChars_get? old hcs k
  rw [hi] at hcg
  simp only [Option.some_bind] at hcg
  obtain ⟨hp, _⟩ := List.get?_eq_some.mp h1
  exact ⟨hp, change, h1, h2, by rw [← hcg, h3]⟩

/-- Claim C2, amended, witness at a concrete input. -/
theorem remapped_chars_amended_witness :
    0 < ([⟨ChangeTag.Equal, 'b'⟩] : List EditChange).length ∧ ∃ change,
      ([⟨ChangeTag.Equal, 'b'⟩] : List EditChange).get? 0 = some change ∧
        change.tag = ChangeTag.Equal ∧ (['b'] : List Char).get? 0 = some change.val :=
  remapped_chars_amended ['b'] ['b'] [⟨ChangeTag.Equal, 'b'⟩] (by decide) [0] (by decide)
    [0] (by decide) 0 0 0 (by decide) (by decide)

/-! ### Claim C9 -/

/-- Claim C9: with a valid index for `old`, the remap cycle succeeds (no
error is raised); an entry whose span cannot be re-anchored at all is simply
absent from the updated mapping — never present with an empty list — and a
partially re-anchored span's partial position list is present. -/
theorem nomatch_absence (old new : List Char) (script : List EditChange)
    (hdiff : IsDiffOf old new script) (index : List (Nat × List Nat))
    (hvalid : ∀ e ∈ index, ∀ i ∈ e.2, i < old.length)
    (hkeys : (index.map Prod.fst).Nodup)
    (u : Nat) (ixs : List Nat) (hmem : (u, ixs) ∈ index)
    (r : List Nat) (hr : remapTracked old script ixs = some r) :
    ∃ m, update_highlight_index old script index = some m ∧
      (∀ e ∈ m, e.2 ≠ []) ∧
      (r = [] → ∀ l, (u, l) ∉ m) ∧
      (r ≠ [] → (u, r) ∈ m) := by
  obtain ⟨m, hm⟩ := update_some old script index hvalid
  refine ⟨m, hm, ?_, ?_, ?_⟩
  · intro e he
    obtain ⟨u', l'⟩ := e
    exact (update_mem old script index m hm u' l' he).1
  · rintro rfl l hl
    obtain ⟨hne, ixs', hmem', hrt'⟩ := update_mem old script index m hm u l hl
    have hx : ixs' = ixs := nodup_keys_inj index hkeys u ixs' ixs hmem' hmem
    subst hx
    rw [hr] at hrt'
    injection hrt' with hrt'
    exact hne hrt'.symm
  · intro hne
    exact update_mem_of old script index m hm u ixs r hmem hr hne

/-- Claim C9, witness at a concrete input (a span that is lost entirely). -/
theorem nomatch_absence_witness :
    ∃ m, update_highlight_index ['a'] [⟨ChangeTag.Delete,'a'⟩, ⟨ChangeTag.Insert,'b'⟩]
        [(0, [0])] = some m ∧
      (∀ e ∈ m, e.2 ≠ []) ∧
      (([] : List Nat) = [] → ∀ l, (0, l) ∉ m) ∧
      (([] : List Nat) ≠ [] → (0, ([] : List Nat)) ∈ m) :=
  nomatch_absence ['a'] ['b'] [⟨ChangeTag.Delete,'a'⟩, ⟨ChangeTag.Insert,'b'⟩] (by decide)
    [(0, [0])] (by decide) (by decide) 0 [0] (by decide) [] (by decide)

/-! ### Claim C10 -/

/-- Claim C10: an entry whose tracked position list is empty never matches
any Equal record (the anchor sequence is empty), so it is always absent from
the remapper's output mapping, and no error is raised on its account. -/
theorem empty_span_absent (old new : List Char) (script : List EditChange)
    (hdiff : IsDiffOf old new script) (index : List (Nat × List Nat))
    (hvalid : ∀ e ∈ index, ∀ i ∈ e.2, i < old.length)
    (hkeys : (index.map Prod.fst).Nodup)
    (u : Nat) (hmem : (u, ([] : List Nat)) ∈ index)
    (m : List (Nat × List Nat)) (hm : update_highlight_index old script index = some m) :
    ∀ l, (u, l) ∉ m := by
  intro l hl
  obtain ⟨hne, ixs', hmem', hrt'⟩ := update_mem old script index m hm u l hl
  have hx : ixs' = [] := nodup_keys_inj index hkeys u ixs' [] hmem' hmem
  subst hx
  have hempty : remapTracked old script ([] : List Nat) = some [] := by
    simp [remapTracked, resolveChars, remapLoop_nil_orig]
  rw [hempty] at hrt'
  injection hrt' with hrt'
  exact hne hrt'.symm

/-- Claim C10, witness at a concrete input. -/
theorem empty_span_absent_witness :
    (0, ([0] : List Nat)) ∉ ([] : List (Nat × List Nat)) :=
  empty_span_absent ['a'] ['a'] [⟨ChangeTag.Equal, 'a'⟩] (by decide) [(0, [])] (by decide)
    (by decide) 0 (by decide) [] (by decide) [0]

end SimilarLib
